import Mathlib

/-!
Verification of the k_Sequitur grammar-induction engine
(src/utilities/grammar_algorithms/k_Sequitur.py).

Symbols in the Python code are either raw integer actions, rule names of the
form "R<n>", or the reserved end-of-episode marker "/".  These three kinds of
values are pairwise distinct in Python, which the sum type `Sym` captures.
Python dicts are modelled as insertion-ordered association lists with
overwrite-in-place semantics.  Counters are `Int` (Python integers can go
negative here, because of the compensating decrements).
-/

namespace KSeq

inductive Sym where
  | raw : Int → Sym
  | rule : Nat → Sym
  | eoe : Sym
deriving DecidableEq, Repr

abbrev SPair := Sym × Sym
abbrev Rules := List (Sym × SPair)
abbrev RevRules := List (SPair × Sym)
abbrev PairCount := List (SPair × Int)
abbrev UsageCount := List (Sym × Int)
abbrev ActionUsage := List (List Sym × Int)

instance : DecidableEq (List Sym × Rules × ActionUsage) := instDecidableEqProd

/-- Lookup in a Python-style dict modelled as an association list. -/
def dictGet {α β : Type} [DecidableEq α] : List (α × β) → α → Option β
  | [], _ => none
  | e :: rest, key => if e.1 = key then some e.2 else dictGet rest key

/-- Lookup with a default value (`defaultdict` read). -/
def dictGetD {α β : Type} [DecidableEq α] (d : List (α × β)) (key : α) (v0 : β) : β :=
  (dictGet d key).getD v0

/-- Assignment `d[key] = v`: overwrite in place if present, else append
(Python dicts preserve insertion order). -/
def dictSet {α β : Type} [DecidableEq α] : List (α × β) → α → β → List (α × β)
  | [], key, v => [(key, v)]
  | e :: rest, key, v => if e.1 = key then (key, v) :: rest else e :: dictSet rest key v

/-- `d.update(l)`: assign every entry of `l` into `d`, in order. -/
def dictUpdate {α β : Type} [DecidableEq α] (d : List (α × β)) (l : List (α × β)) :
    List (α × β) :=
  l.foldl (fun acc e => dictSet acc e.1 e.2) d

/-- Python list indexing: a negative index counts from the end of the list.
All uses in this development are in range, so the default is never returned. -/
def pyGet (s : List Sym) (i : Int) : Sym :=
  if i < 0 then s.getD (s.length - (-i).toNat) (Sym.raw 0)
  else s.getD i.toNat (Sym.raw 0)

/-- The adjacent pair `(string[ix], string[ix+1])` formed by the Layer Builder. -/
def pairAt (s : List Sym) (ix : Nat) : SPair :=
  (pyGet s (ix : Int), pyGet s ((ix : Int) + 1))

/-- Number of adjacent positions of `s` carrying the pair `p` (the raw
occurrence count of the pair, before any of the scan's adjustments). -/
def occCount (s : List Sym) (p : SPair) : Nat :=
  (List.range (s.length - 1)).countP (fun ix => decide (pairAt s ix = p))

/-- `get_next_rule_name`: returns the rule name "R<n>" and the bumped counter. -/
def get_next_rule_name (next : Nat) : Sym × Nat :=
  (Sym.rule next, next + 1)

/-- The scan loop of `generate_1_layer_of_rules`, one call per remaining index.
State: pair counter, last counted pair, skip flag, minted rules, name counter. -/
def gen1Go (k : Int) (s : List Sym) :
    List Nat → PairCount → Option SPair → Bool → Rules → Nat → Rules × Nat
  | [], _, _, _, rules, next => (rules, next)
  | ix :: rest, cnt, last, skip, rules, next =>
    if skip then
      gen1Go k s rest cnt last false rules next
    else if pyGet s ((ix : Int) + 1) = Sym.eoe then
      gen1Go k s rest cnt last skip rules next
    else
      let pair := pairAt s ix
      let cnt1 := if some pair = last then cnt
                  else dictSet cnt pair (dictGetD cnt pair 0 + 1)
      let last1 := if some pair = last then none else some pair
      if k ≤ dictGetD cnt1 pair 0 then
        let prev := (pyGet s ((ix : Int) - 1), pyGet s (ix : Int))
        let cnt2 := dictSet cnt1 prev (dictGetD cnt1 prev 0 - 1)
        if rules.all (fun e => e.2 != pair) then
          let rn := get_next_rule_name next
          gen1Go k s rest cnt2 last1 true (dictSet rules rn.1 pair) rn.2
        else
          gen1Go k s rest cnt2 last1 true rules next
      else
        gen1Go k s rest cnt1 last1 false rules next

/-- `generate_1_layer_of_rules`: one full scan of the string; returns the
rules minted in this layer, the reverse lookup, and the updated name counter. -/
def generate_1_layer_of_rules (k : Int) (string : List Sym) (next : Nat) :
    Rules × RevRules × Nat :=
  let r := gen1Go k string (List.range (string.length - 1)) [] none false [] next
  (r.1, r.1.foldl (fun acc e => dictSet acc e.2 e.1) [], r.2)

/-- The scan loop of `convert_a_string_using_reverse_rules`.  The three cases
mirror the index loop: a skipped element never reaches the body, the last
unconsumed element is appended as is, and otherwise the adjacent pair is
either replaced by its rule name (skipping the next element) or the current
symbol is copied. -/
def convertAux (rr : RevRules) : List Sym → UsageCount → List Sym × UsageCount
  | [], u => ([], u)
  | [a], u => ([a], u)
  | a :: b :: rest, u =>
    match dictGet rr (a, b) with
    | some nm =>
      let r := convertAux rr rest (dictSet u nm (dictGetD u nm 0 + 1))
      (nm :: r.1, r.2)
    | none =>
      let r := convertAux rr (b :: rest) u
      (a :: r.1, r.2)

/-- `convert_a_string_using_reverse_rules`: rewrite the string with one
left-to-right greedy substitution pass, tallying per-rule usage counts. -/
def convert_a_string_using_reverse_rules (string : List Sym) (rr : RevRules) :
    List Sym × UsageCount :=
  convertAux rr string []

/-- One pass of the expansion loop in `convert_symbol_to_raw_actions`:
every symbol present in the rule table is replaced by its two-symbol
right-hand side, other symbols are copied. -/
def expandOnce (rules : Rules) : List Sym → List Sym
  | [] => []
  | v :: rest =>
    match dictGet rules v with
    | some p => p.1 :: p.2 :: expandOnce rules rest
    | none => v :: expandOnce rules rest

/-- The `while not finished` loop of `convert_symbol_to_raw_actions`:
iterate `expandOnce` until a pass changes nothing.  The fuel bounds the
number of passes; `rules.length + 1` passes always suffice for the rule
tables produced by this engine (shown below), so the fuel never runs out
where the Python loop terminates. -/
def expandIter (rules : Rules) : Nat → List Sym → List Sym
  | 0, cur => expandOnce rules cur
  | fuel + 1, cur =>
    let nw := expandOnce rules cur
    if nw = cur then nw else expandIter rules fuel nw

/-- `convert_symbol_to_raw_actions`: recursively unfold a symbol into the
sequence of raw actions it represents. -/
def convert_symbol_to_raw_actions (symbol : Sym) (rules : Rules) : List Sym :=
  expandIter rules (rules.length + 1) [symbol]

/-- The driver's merge `rule_usage[key] += rules_usage_count[key]`. -/
def mergeUsage (ru : UsageCount) (cnt : UsageCount) : UsageCount :=
  cnt.foldl (fun acc e => dictSet acc e.1 (dictGetD acc e.1 0 + e.2)) ru

/-- The driver's final step: `action_usage[expansion of key] = rule_usage[key]`
for every key of the accumulated usage map, in insertion order. -/
def build_action_usage (rules : Rules) (ru : UsageCount) : ActionUsage :=
  ru.foldl (fun acc e => dictSet acc (convert_symbol_to_raw_actions e.1 rules) e.2) []

/-- The `while new_actions != current_actions` loop of
`generate_action_grammar`.  The fuel dominates the iteration count: the
sequence strictly shrinks on every repeated iteration (proved below), so
`length + 1` units of fuel always suffice and `none` is never returned. -/
def loopFuel (k : Int) :
    Nat → List Sym → Nat → Rules → UsageCount →
    Option (List Sym × Rules × UsageCount)
  | 0, _, _, _, _ => none
  | fuel + 1, cur, next, allR, ru =>
    let g := generate_1_layer_of_rules k cur next
    let allR1 := dictUpdate allR g.1
    let c := convert_a_string_using_reverse_rules cur g.2.1
    let ru1 := mergeUsage ru c.2
    if c.1 = cur then some (c.1, allR1, ru1)
    else loopFuel k fuel c.1 g.2.2 allR1 ru1

/-- `generate_action_grammar`: asserts the input is a non-empty list whose
first element is a raw integer, then runs layers to a fixpoint and reports
the final sequence, the accumulated rule table, and the usage map keyed by
fully expanded action tuples.  `next0` is the engine instance's rule-name
counter (`0` for a fresh instance). -/
def generate_action_grammar (k : Int) (next0 : Nat) (actions : List Sym) :
    Option (List Sym × Rules × ActionUsage) :=
  match actions with
  | [] => none
  | Sym.raw _ :: _ =>
    match loopFuel k (actions.length + 1) actions next0 [] [] with
    | some r => some (r.1, r.2.1, build_action_usage r.2.1 r.2.2)
    | none => none
  | _ => none

/-- Expanding every symbol of a sequence and concatenating the results. -/
def expandSequence (rules : Rules) : List Sym → List Sym
  | [] => []
  | a :: rest => convert_symbol_to_raw_actions a rules ++ expandSequence rules rest

/-- Raw terminal test (the "integer action" check). -/
def isRaw : Sym → Bool
  | Sym.raw _ => true
  | _ => false

/-- Modelled from the spec: the Layer Builder scan with the guard the spec
describes for the compensating decrement, "(Guard: only applies when i-1 is a
valid index.)" — at `ix = 0` no count is decremented.  Identical to `gen1Go`
otherwise.  Used only to contrast the source's unguarded decrement (which at
`ix = 0` hits the Python negative index `string[-1]`). -/
def gen1GoGuarded (k : Int) (s : List Sym) :
    List Nat → PairCount → Option SPair → Bool → Rules → Nat → Rules × Nat
  | [], _, _, _, rules, next => (rules, next)
  | ix :: rest, cnt, last, skip, rules, next =>
    if skip then
      gen1GoGuarded k s rest cnt last false rules next
    else if pyGet s ((ix : Int) + 1) = Sym.eoe then
      gen1GoGuarded k s rest cnt last skip rules next
    else
      let pair := pairAt s ix
      let cnt1 := if some pair = last then cnt
                  else dictSet cnt pair (dictGetD cnt pair 0 + 1)
      let last1 := if some pair = last then none else some pair
      if k ≤ dictGetD cnt1 pair 0 then
        let prev := (pyGet s ((ix : Int) - 1), pyGet s (ix : Int))
        let cnt2 := if ix = 0 then cnt1
                    else dictSet cnt1 prev (dictGetD cnt1 prev 0 - 1)
        if rules.all (fun e => e.2 != pair) then
          let rn := get_next_rule_name next
          gen1GoGuarded k s rest cnt2 last1 true (dictSet rules rn.1 pair) rn.2
        else
          gen1GoGuarded k s rest cnt2 last1 true rules next
      else
        gen1GoGuarded k s rest cnt1 last1 false rules next

/-- Modelled from the spec: `generate_1_layer_of_rules` with the guarded
decrement of `gen1GoGuarded`. -/
def generate_1_layer_of_rules_guarded (k : Int) (string : List Sym) (next : Nat) :
    Rules × RevRules × Nat :=
  let r := gen1GoGuarded k string (List.range (string.length - 1)) [] none false [] next
  (r.1, r.1.foldl (fun acc e => dictSet acc e.2 e.1) [], r.2)

/-! ### Dictionary lemmas -/

theorem dictGet_dictSet_self {α β : Type} [DecidableEq α] (d : List (α × β)) (key : α) (v : β) :
    dictGet (dictSet d key v) key = some v := by
  induction d with
  | nil => simp [dictSet, dictGet]
  | cons e rest ih => by_cases h : e.1 = key <;> simp [dictSet, dictGet, h, ih]

theorem dictGet_dictSet_ne {α β : Type} [DecidableEq α] (d : List (α × β)) (key : α) (v : β)
    {key' : α} (h : key' ≠ key) :
    dictGet (dictSet d key v) key' = dictGet d key' := by
  induction d with
  | nil => simp [dictSet, dictGet, Ne.symm h]
  | cons e rest ih =>
    by_cases he : e.1 = key
    · simp [dictSet, dictGet, he, Ne.symm h]
    · simp [dictSet, dictGet, he, ih]

theorem dictGetD_dictSet_self {α β : Type} [DecidableEq α] (d : List (α × β)) (key : α)
    (v v0 : β) : dictGetD (dictSet d key v) key v0 = v := by
  simp [dictGetD, dictGet_dictSet_self]

theorem dictGetD_dictSet_ne {α β : Type} [DecidableEq α] (d : List (α × β)) (key : α)
    (v v0 : β) {key' : α} (h : key' ≠ key) :
    dictGetD (dictSet d key v) key' v0 = dictGetD d key' v0 := by
  simp [dictGetD, dictGet_dictSet_ne d key v h]

theorem mem_dictSet {α β : Type} [DecidableEq α] {d : List (α × β)} {key : α} {v : β}
    {e : α × β} (h : e ∈ dictSet d key v) : e ∈ d ∨ e = (key, v) := by
  induction d with
  | nil => simp [dictSet] at h; simp [h]
  | cons f rest ih =>
    by_cases hf : f.1 = key
    · simp only [dictSet, hf, if_pos rfl] at h
      rcases List.mem_cons.mp h with h | h
      · right; exact h
      · left; exact List.mem_cons_of_mem _ h
    · simp only [dictSet, hf, if_neg hf] at h
      rcases List.mem_cons.mp h with h | h
      · left; simp [h]
      · rcases ih h with h2 | h2
        · left; exact List.mem_cons_of_mem _ h2
        · right; exact h2

theorem dictSet_fresh {α β : Type} [DecidableEq α] {d : List (α × β)} {key : α}
    (h : dictGet d key = none) (v : β) : dictSet d key v = d ++ [(key, v)] := by
  induction d with
  | nil => simp [dictSet]
  | cons e rest ih =>
    by_cases he : e.1 = key
    · simp [dictGet, he] at h
    · simp [dictGet, he] at h
      simp [dictSet, he, ih h]

theorem dictGet_append_left {α β : Type} [DecidableEq α] {d1 : List (α × β)} {key : α}
    {v : β} (d2 : List (α × β)) (h : dictGet d1 key = some v) :
    dictGet (d1 ++ d2) key = some v := by
  induction d1 with
  | nil => simp [dictGet] at h
  | cons e rest ih => by_cases he : e.1 = key <;> simp_all [dictGet]

theorem dictGet_append_none {α β : Type} [DecidableEq α] {d1 : List (α × β)} {key : α}
    (d2 : List (α × β)) (h : dictGet d1 key = none) :
    dictGet (d1 ++ d2) key = dictGet d2 key := by
  induction d1 with
  | nil => simp [dictGet]
  | cons e rest ih => by_cases he : e.1 = key <;> simp_all [dictGet]

theorem dictGet_eq_none {α β : Type} [DecidableEq α] {d : List (α × β)} {key : α}
    (h : ∀ e ∈ d, e.1 ≠ key) : dictGet d key = none := by
  induction d with
  | nil => rfl
  | cons e rest ih =>
    simp only [dictGet, if_neg (h e (List.mem_cons_self e rest))]
    exact ih (fun f hf => h f (List.mem_cons_of_mem _ hf))

theorem dictGet_mem {α β : Type} [DecidableEq α] {d : List (α × β)} {key : α} {v : β}
    (h : dictGet d key = some v) : (key, v) ∈ d := by
  induction d with
  | nil => simp [dictGet] at h
  | cons e rest ih =>
    by_cases he : e.1 = key
    · simp only [dictGet, if_pos he] at h
      have : e = (key, v) := by cases e; simp_all
      simp [← this]
    · simp only [dictGet, if_neg he] at h
      exact List.mem_cons_of_mem _ (ih h)

theorem dictGet_of_mem_nodup {α β : Type} [DecidableEq α] {d : List (α × β)}
    (hn : (d.map Prod.fst).Nodup) {key : α} {v : β} (h : (key, v) ∈ d) :
    dictGet d key = some v := by
  induction d with
  | nil => simp at h
  | cons e rest ih =>
    simp only [List.map_cons, List.nodup_cons] at hn
    rcases List.mem_cons.mp h with h | h
    · simp [dictGet, ← h]
    · by_cases he : e.1 = key
      · exact absurd (by simpa [he] using List.mem_map_of_mem Prod.fst h) hn.1
      · simp only [dictGet, if_neg he]
        exact ih hn.2 h

theorem dictGet_isSome_dictSet {α β : Type} [DecidableEq α] {d : List (α × β)} {key : α}
    (h : (dictGet d key).isSome) (k2 : α) (v : β) :
    (dictGet (dictSet d k2 v) key).isSome := by
  by_cases hk : key = k2
  · simp [hk, dictGet_dictSet_self]
  · simpa [dictGet_dictSet_ne d k2 v hk] using h

theorem dictUpdate_append {α β : Type} [DecidableEq α] :
    ∀ {l : List (α × β)} {d : List (α × β)}, (l.map Prod.fst).Nodup →
      (∀ e ∈ l, dictGet d e.1 = none) → dictUpdate d l = d ++ l := by
  intro l
  induction l with
  | nil => simp [dictUpdate]
  | cons e rest ih =>
    intro d hn hf
    simp only [List.map_cons, List.nodup_cons] at hn
    have step : dictUpdate d (e :: rest) = dictUpdate (dictSet d e.1 e.2) rest := rfl
    rw [step, dictSet_fresh (hf e (List.mem_cons_self e rest)) e.2]
    have hd : (d ++ [(e.1, e.2)]) ++ rest = d ++ (e :: rest) := by simp
    rw [← hd]
    refine ih hn.2 (fun f hfr => ?_)
    have h1 : dictGet d f.1 = none := hf f (List.mem_cons_of_mem _ hfr)
    rw [dictGet_append_none _ h1]
    have hne : f.1 ≠ e.1 := by
      intro hcontra
      exact hn.1 (by simpa [← hcontra] using List.mem_map_of_mem Prod.fst hfr)
    simp [dictGet, Ne.symm hne]

/-! ### Indexing lemmas -/

theorem pyGet_natCast (s : List Sym) (ix : Nat) :
    pyGet s (ix : Int) = s.getD ix (Sym.raw 0) := by
  simp [pyGet]

theorem pairAt_eq_getD (s : List Sym) (ix : Nat) :
    pairAt s ix = (s.getD ix (Sym.raw 0), s.getD (ix + 1) (Sym.raw 0)) := by
  unfold pairAt
  rw [show ((ix : Int) + 1) = ((ix + 1 : Nat) : Int) by push_cast; ring]
  rw [pyGet_natCast, pyGet_natCast]

theorem pairAt_zero_cons (a b : Sym) (t : List Sym) : pairAt (a :: b :: t) 0 = (a, b) := by
  simp [pairAt_eq_getD]

theorem pairAt_succ_cons (a : Sym) (t : List Sym) (ix : Nat) :
    pairAt (a :: t) (ix + 1) = pairAt t ix := by
  simp [pairAt_eq_getD]

theorem getD_mem_or (s : List Sym) (n : Nat) :
    s.getD n (Sym.raw 0) ∈ s ∨ s.getD n (Sym.raw 0) = Sym.raw 0 := by
  induction s generalizing n with
  | nil => right; simp [List.getD]
  | cons a t ih =>
    cases n with
    | zero =>
      rw [List.getD_cons_zero]
      left; exact List.mem_cons_self a t
    | succ m =>
      rw [List.getD_cons_succ]
      rcases ih m with h | h
      · left; exact List.mem_cons_of_mem _ h
      · right; exact h

theorem pyGet_mem_or_default (s : List Sym) (i : Int) :
    pyGet s i ∈ s ∨ pyGet s i = Sym.raw 0 := by
  unfold pyGet
  split
  · exact getD_mem_or s _
  · exact getD_mem_or s _

/-! ### Rewriter lemmas -/

theorem convertAux_len_le (rr : RevRules) (s : List Sym) (u : UsageCount) :
    (convertAux rr s u).1.length ≤ s.length := by
  induction s, u using convertAux.induct rr with
  | case1 u => simp [convertAux]
  | case2 a u => simp [convertAux]
  | case3 a b rest u nm h ih => simp [convertAux, h]; omega
  | case4 a b rest u h ih => simp [convertAux, h]; simpa using ih

theorem convertAux_eq_of_len (rr : RevRules) (s : List Sym) (u : UsageCount)
    (h : (convertAux rr s u).1.length = s.length) : (convertAux rr s u).1 = s := by
  induction s, u using convertAux.induct rr with
  | case1 u => simp [convertAux]
  | case2 a u => simp [convertAux]
  | case3 a b rest u nm hm ih =>
    exfalso
    have hle := convertAux_len_le rr rest (dictSet u nm (dictGetD u nm 0 + 1))
    simp [convertAux, hm] at h
    omega
  | case4 a b rest u hm ih =>
    simp only [convertAux, hm] at h ⊢
    simp only [List.length_cons] at h
    have := ih (by simpa using h)
    simp [this]

theorem convertAux_ne_imp_lt (rr : RevRules) (s : List Sym) (u : UsageCount)
    (h : (convertAux rr s u).1 ≠ s) : (convertAux rr s u).1.length < s.length := by
  rcases Nat.lt_or_ge (convertAux rr s u).1.length s.length with hlt | hge
  · exact hlt
  · exact absurd (convertAux_eq_of_len rr s u
      (Nat.le_antisymm (convertAux_len_le rr s u) hge)) h

theorem convertAux_nil_rules (s : List Sym) (u : UsageCount) :
    convertAux [] s u = (s, u) := by
  induction s, u using convertAux.induct ([] : RevRules) with
  | case1 u => simp [convertAux]
  | case2 a u => simp [convertAux]
  | case3 a b rest u nm hm ih => simp [dictGet] at hm
  | case4 a b rest u hm ih => simp [convertAux, dictGet, ih]

theorem convertAux_lt_of_match (rr : RevRules) (s : List Sym) (u : UsageCount) :
    ∀ ix : Nat, ix + 1 < s.length → (dictGet rr (pairAt s ix)).isSome →
      (convertAux rr s u).1.length < s.length := by
  induction s, u using convertAux.induct rr with
  | case1 u => intro ix h; simp at h
  | case2 a u => intro ix h; simp at h
  | case3 a b rest u nm hm ih =>
    intro ix _ _
    have hle := convertAux_len_le rr rest (dictSet u nm (dictGetD u nm 0 + 1))
    simp [convertAux, hm]
    omega
  | case4 a b rest u hm ih =>
    intro ix hix hsome
    match ix with
    | 0 =>
      rw [pairAt_zero_cons] at hsome
      rw [hm] at hsome
      simp at hsome
    | j + 1 =>
      rw [pairAt_succ_cons] at hsome
      have hj : j + 1 < (b :: rest).length := by
        simp only [List.length_cons] at hix ⊢; omega
      have := ih j hj hsome
      simp only [convertAux, hm, List.length_cons] at this ⊢
      omega

theorem convertAux_syms (rr : RevRules) (s : List Sym) (u : UsageCount) :
    ∀ x ∈ (convertAux rr s u).1, x ∈ s ∨ ∃ p, dictGet rr p = some x := by
  induction s, u using convertAux.induct rr with
  | case1 u => simp [convertAux]
  | case2 a u => intro x hx; simp [convertAux] at hx; simp [hx]
  | case3 a b rest u nm hm ih =>
    intro x hx
    simp only [convertAux, hm] at hx
    rcases List.mem_cons.mp hx with hx | hx
    · right; exact ⟨(a, b), hx ▸ hm⟩
    · rcases ih x hx with h | h
      · left; simp [h]
      · right; exact h
  | case4 a b rest u hm ih =>
    intro x hx
    simp only [convertAux, hm] at hx
    rcases List.mem_cons.mp hx with hx | hx
    · left; simp [hx]
    · rcases ih x hx with h | h
      · left; simp at h; rcases h with h | h <;> simp [h]
      · right; exact h

/-! ### Well-formed rule tables

A rule table produced by the engine lists its entries in minting order:
keys are rule names with strictly increasing indices, and each right-hand
side only mentions symbols created before its own key.  This is the shape
that makes the expansion loop terminate. -/

/-- Every rule name occurring in the symbol has index strictly below `n`. -/
def SymBelow (n : Nat) : Sym → Prop
  | Sym.rule m => m < n
  | _ => True

/-- All keys of the table are rule names with index strictly below `ub`. -/
def KeysBelow (ub : Nat) (R : Rules) : Prop :=
  ∀ e ∈ R, ∃ m, e.1 = Sym.rule m ∧ m < ub

/-- Well-formed rule table: keys are rule names `≥ lo` in strictly increasing
order, and each right-hand side is below its own key. -/
def WFR : Nat → Rules → Prop
  | _, [] => True
  | lo, e :: rest =>
    ∃ n, e.1 = Sym.rule n ∧ lo ≤ n ∧ SymBelow n e.2.1 ∧ SymBelow n e.2.2 ∧ WFR (n + 1) rest

theorem symBelow_mono {n n2 : Nat} (h : n ≤ n2) : ∀ {x : Sym}, SymBelow n x → SymBelow n2 x := by
  intro x hx
  match x with
  | Sym.rule m => exact Nat.lt_of_lt_of_le hx h
  | Sym.raw i => trivial
  | Sym.eoe => trivial

theorem symBelow_ne_rule {m n : Nat} {c : Sym} (hc : SymBelow m c) (hmn : m ≤ n) :
    c ≠ Sym.rule n := by
  intro h
  subst h
  exact absurd (Nat.lt_of_lt_of_le hc hmn) (lt_irrefl n)

theorem WFR_mono : ∀ {R : Rules} {lo lo2 : Nat}, lo2 ≤ lo → WFR lo R → WFR lo2 R := by
  intro R
  induction R with
  | nil => intro lo lo2 _ _; trivial
  | cons e rest ih =>
    intro lo lo2 h hw
    simp only [WFR] at hw ⊢
    obtain ⟨n, h1, h2, h3, h4, h5⟩ := hw
    exact ⟨n, h1, Nat.le_trans h h2, h3, h4, h5⟩

theorem WFR_mem : ∀ {R : Rules} {lo : Nat}, WFR lo R → ∀ {e}, e ∈ R →
    ∃ n, e.1 = Sym.rule n ∧ lo ≤ n ∧ SymBelow n e.2.1 ∧ SymBelow n e.2.2 := by
  intro R
  induction R with
  | nil => intro lo _ e he; simp at he
  | cons f rest ih =>
    intro lo hw e he
    simp only [WFR] at hw
    obtain ⟨n, h1, h2, h3, h4, h5⟩ := hw
    rcases List.mem_cons.mp he with he | he
    · subst he; exact ⟨n, h1, h2, h3, h4⟩
    · obtain ⟨m, g1, g2, g3, g4⟩ := ih h5 he
      exact ⟨m, g1, by omega, g3, g4⟩

theorem WFR_nodup_keys : ∀ {R : Rules} {lo : Nat}, WFR lo R → (R.map Prod.fst).Nodup := by
  intro R
  induction R with
  | nil => intro lo _; simp
  | cons f rest ih =>
    intro lo hw
    simp only [WFR] at hw
    obtain ⟨n, h1, _, _, _, h5⟩ := hw
    simp only [List.map_cons, List.nodup_cons]
    refine ⟨?_, ih h5⟩
    intro hmem
    obtain ⟨e, he, hkey⟩ := List.mem_map.mp hmem
    obtain ⟨m, g1, g2, _, _⟩ := WFR_mem h5 he
    rw [g1, h1] at hkey
    have : m = n := by injection hkey
    omega

theorem keysBelow_dictGet_none {R : Rules} {ub : Nat} (h : KeysBelow ub R) {m : Nat}
    (hm : ub ≤ m) : dictGet R (Sym.rule m) = none := by
  refine dictGet_eq_none (fun e he => ?_)
  obtain ⟨m2, h1, h2⟩ := h e he
  rw [h1]
  intro hc
  have : m2 = m := by injection hc
  omega

theorem WFR_raw_none {R : Rules} {lo : Nat} (h : WFR lo R) (i : Int) :
    dictGet R (Sym.raw i) = none := by
  refine dictGet_eq_none (fun e he => ?_)
  obtain ⟨n, h1, _, _, _⟩ := WFR_mem h he
  rw [h1]
  simp

theorem WFR_append : ∀ {R1 : Rules} {lo mid : Nat} (R2 : Rules), lo ≤ mid →
    WFR lo R1 → KeysBelow mid R1 → WFR mid R2 → WFR lo (R1 ++ R2) := by
  intro R1
  induction R1 with
  | nil => intro lo mid R2 h _ _ hw2; simpa using WFR_mono h hw2
  | cons f rest ih =>
    intro lo mid R2 h hw1 hkb hw2
    simp only [WFR, List.cons_append] at hw1 ⊢
    obtain ⟨n, h1, h2, h3, h4, h5⟩ := hw1
    have hn : n < mid := by
      obtain ⟨m, g1, g2⟩ := hkb f (List.mem_cons_self f rest)
      rw [h1] at g1
      have : n = m := by injection g1
      omega
    exact ⟨n, h1, h2, h3, h4,
      ih R2 (by omega) h5 (fun e he => hkb e (List.mem_cons_of_mem _ he)) hw2⟩

theorem WFR_snoc_inv : ∀ {R : Rules} {lo : Nat} {e : Sym × SPair},
    WFR lo (R ++ [e]) → WFR lo R ∧
      ∃ n, e.1 = Sym.rule n ∧ lo ≤ n ∧ SymBelow n e.2.1 ∧ SymBelow n e.2.2 ∧ KeysBelow n R := by
  intro R
  induction R with
  | nil =>
    intro lo e hw
    simp only [List.nil_append, WFR] at hw
    obtain ⟨n, h1, h2, h3, h4, _⟩ := hw
    exact ⟨trivial, n, h1, h2, h3, h4, fun f hf => by simp at hf⟩
  | cons f rest ih =>
    intro lo e hw
    simp only [List.cons_append, WFR] at hw
    obtain ⟨n, h1, h2, h3, h4, h5⟩ := hw
    obtain ⟨hw2, m, g1, g2, g3, g4, g5⟩ := ih h5
    refine ⟨⟨n, h1, h2, h3, h4, hw2⟩, m, g1, by omega, g3, g4, ?_⟩
    intro x hx
    rcases List.mem_cons.mp hx with hx | hx
    · subst hx; exact ⟨n, h1, by omega⟩
    · exact g5 x hx

/-! ### The expansion fixpoint -/

/-- `m` passes of `expandOnce`. -/
def iterN (R : Rules) : Nat → List Sym → List Sym
  | 0, l => l
  | m + 1, l => iterN R m (expandOnce R l)

theorem expandOnce_append (R : Rules) : ∀ (l1 l2 : List Sym),
    expandOnce R (l1 ++ l2) = expandOnce R l1 ++ expandOnce R l2 := by
  intro l1 l2
  induction l1 with
  | nil => simp [expandOnce]
  | cons v rest ih =>
    simp only [List.cons_append, expandOnce]
    cases h : dictGet R v <;> simp [h, ih]

theorem expandOnce_id_of_none (R : Rules) : ∀ {l : List Sym},
    (∀ v ∈ l, dictGet R v = none) → expandOnce R l = l := by
  intro l
  induction l with
  | nil => intro _; rfl
  | cons v rest ih =>
    intro h
    simp only [expandOnce, h v (List.mem_cons_self v rest)]
    rw [ih (fun x hx => h x (List.mem_cons_of_mem _ hx))]

theorem iterN_succ_right (R : Rules) : ∀ (m : Nat) (l : List Sym),
    iterN R (m + 1) l = expandOnce R (iterN R m l) := by
  intro m
  induction m with
  | zero => intro l; rfl
  | succ m2 ih =>
    intro l
    calc iterN R (m2 + 2) l = iterN R (m2 + 1) (expandOnce R l) := rfl
      _ = expandOnce R (iterN R m2 (expandOnce R l)) := ih _
      _ = expandOnce R (iterN R (m2 + 1) l) := rfl

theorem iterN_append (R : Rules) : ∀ (m : Nat) (l1 l2 : List Sym),
    iterN R m (l1 ++ l2) = iterN R m l1 ++ iterN R m l2 := by
  intro m
  induction m with
  | zero => intro l1 l2; rfl
  | succ m2 ih =>
    intro l1 l2
    show iterN R m2 (expandOnce R (l1 ++ l2)) = _
    rw [expandOnce_append, ih]
    rfl

theorem iterN_fix (R : Rules) {l : List Sym} (h : expandOnce R l = l) :
    ∀ m, iterN R m l = l := by
  intro m
  induction m with
  | zero => rfl
  | succ m2 ih =>
    show iterN R m2 (expandOnce R l) = l
    rw [h, ih]

theorem expandIter_eq_of_stab (R : Rules) : ∀ (m f : Nat) (l : List Sym), m ≤ f →
    expandOnce R (iterN R m l) = iterN R m l → expandIter R f l = iterN R m l := by
  intro m
  induction m with
  | zero =>
    intro f l _ hfix
    simp only [iterN] at hfix ⊢
    cases f with
    | zero => exact hfix
    | succ f2 =>
      simp only [expandIter]
      rw [if_pos hfix]
      exact hfix
  | succ m2 ih =>
    intro f l hmf hfix
    cases f with
    | zero => omega
    | succ f2 =>
      simp only [expandIter]
      by_cases hnw : expandOnce R l = l
      · rw [if_pos hnw, hnw, iterN_fix R hnw (m2 + 1)]
      · simp only [if_neg hnw]
        exact ih f2 (expandOnce R l) (by omega) hfix

/-! ### Stabilization of the expansion under well-formed tables -/

theorem not_mem_expandOnce_sub {R2 : Rules} {lo n : Nat} (hwf : WFR lo R2)
    (hkb : KeysBelow n R2) : ∀ {l : List Sym}, Sym.rule n ∉ l →
      Sym.rule n ∉ expandOnce R2 l := by
  intro l
  induction l with
  | nil => intro _; simp [expandOnce]
  | cons v rest ih =>
    intro hl
    have hv : v ≠ Sym.rule n := fun hc => hl (hc ▸ List.mem_cons_self v rest)
    have hrest : Sym.rule n ∉ rest := fun hc => hl (List.mem_cons_of_mem _ hc)
    simp only [expandOnce]
    cases hg : dictGet R2 v with
    | some q =>
      have hmem := dictGet_mem hg
      obtain ⟨m, g1, _, g3, g4⟩ := WFR_mem hwf hmem
      obtain ⟨m2, e1, e2⟩ := hkb _ hmem
      rw [g1] at e1
      have hm : m = m2 := by injection e1
      subst hm
      intro hcon
      rcases List.mem_cons.mp hcon with hcon | hcon
      · exact symBelow_ne_rule g3 (by omega) hcon.symm
      rcases List.mem_cons.mp hcon with hcon | hcon
      · exact symBelow_ne_rule g4 (by omega) hcon.symm
      · exact ih hrest hcon
    | none =>
      intro hcon
      rcases List.mem_cons.mp hcon with hcon | hcon
      · exact hv hcon.symm
      · exact ih hrest hcon

theorem not_mem_expandOnce_full {R2 : Rules} {lo n : Nat} {p : SPair} (hwf : WFR lo R2)
    (hkb : KeysBelow n R2) (hp1 : SymBelow n p.1) (hp2 : SymBelow n p.2) :
    ∀ (l : List Sym), Sym.rule n ∉ expandOnce (R2 ++ [(Sym.rule n, p)]) l := by
  intro l
  induction l with
  | nil => simp [expandOnce]
  | cons v rest ih =>
    simp only [expandOnce]
    cases hg : dictGet (R2 ++ [(Sym.rule n, p)]) v with
    | some q =>
      have hcomp : q.1 ≠ Sym.rule n ∧ q.2 ≠ Sym.rule n := by
        cases hg2 : dictGet R2 v with
        | some q2 =>
          rw [dictGet_append_left _ hg2] at hg
          have hq : q2 = q := by injection hg
          subst hq
          have hmem := dictGet_mem hg2
          obtain ⟨m, g1, _, g3, g4⟩ := WFR_mem hwf hmem
          obtain ⟨m2, e1, e2⟩ := hkb _ hmem
          rw [g1] at e1
          have hm : m = m2 := by injection e1
          subst hm
          exact ⟨symBelow_ne_rule g3 (by omega), symBelow_ne_rule g4 (by omega)⟩
        | none =>
          rw [dictGet_append_none _ hg2] at hg
          by_cases hv : Sym.rule n = v
          · simp only [dictGet, if_pos hv] at hg
            have hq : p = q := by injection hg
            subst hq
            exact ⟨symBelow_ne_rule hp1 (le_refl n), symBelow_ne_rule hp2 (le_refl n)⟩
          · simp [dictGet, hv] at hg
      intro hcon
      rcases List.mem_cons.mp hcon with hcon | hcon
      · exact hcomp.1 hcon.symm
      rcases List.mem_cons.mp hcon with hcon | hcon
      · exact hcomp.2 hcon.symm
      · exact ih hcon
    | none =>
      have hv : v ≠ Sym.rule n := by
        intro hc
        rw [hc, dictGet_append_none _ (keysBelow_dictGet_none hkb (le_refl n))] at hg
        simp [dictGet] at hg
      intro hcon
      rcases List.mem_cons.mp hcon with hcon | hcon
      · exact hv hcon.symm
      · exact ih hcon

theorem expandOnce_agree {R2 : Rules} {n : Nat} {p : SPair} :
    ∀ {l : List Sym}, Sym.rule n ∉ l →
      expandOnce (R2 ++ [(Sym.rule n, p)]) l = expandOnce R2 l := by
  intro l
  induction l with
  | nil => intro _; rfl
  | cons v rest ih =>
    intro hl
    have hv : v ≠ Sym.rule n := fun hc => hl (hc ▸ List.mem_cons_self v rest)
    have hrest : Sym.rule n ∉ rest := fun hc => hl (List.mem_cons_of_mem _ hc)
    have hag : dictGet (R2 ++ [(Sym.rule n, p)]) v = dictGet R2 v := by
      cases hg2 : dictGet R2 v with
      | some q2 => exact dictGet_append_left _ hg2
      | none =>
        rw [dictGet_append_none _ hg2]
        have hvn : Sym.rule n ≠ v := Ne.symm hv
        simp [dictGet, hvn]
    simp only [expandOnce, hag]
    cases hg2 : dictGet R2 v <;> simp [ih hrest]

theorem iterN_agree {R2 : Rules} {lo n : Nat} {p : SPair} (hwf : WFR lo R2)
    (hkb : KeysBelow n R2) : ∀ (m : Nat) {l : List Sym}, Sym.rule n ∉ l →
      iterN (R2 ++ [(Sym.rule n, p)]) m l = iterN R2 m l ∧ Sym.rule n ∉ iterN R2 m l := by
  intro m
  induction m with
  | zero => intro l hl; exact ⟨rfl, hl⟩
  | succ m2 ih =>
    intro l hl
    have h1 : expandOnce (R2 ++ [(Sym.rule n, p)]) l = expandOnce R2 l :=
      expandOnce_agree hl
    have h2 : Sym.rule n ∉ expandOnce R2 l := not_mem_expandOnce_sub hwf hkb hl
    constructor
    · show iterN (R2 ++ [(Sym.rule n, p)]) m2 (expandOnce (R2 ++ [(Sym.rule n, p)]) l) = _
      rw [h1]
      exact (ih h2).1
    · exact (ih h2).2

theorem stab_wfr : ∀ (R : Rules) {lo : Nat}, WFR lo R → ∀ (l : List Sym),
    expandOnce R (iterN R R.length l) = iterN R R.length l := by
  intro R
  induction R using List.reverseRecOn with
  | nil =>
    intro lo _ l
    show expandOnce [] l = l
    exact expandOnce_id_of_none [] (fun v _ => rfl)
  | append_singleton R2 e ih =>
    intro lo hw l
    obtain ⟨hw2, n, hkey, hlon, hp1, hp2, hkb⟩ := WFR_snoc_inv hw
    have he : e = (Sym.rule n, e.2) := by
      cases e
      simp only at hkey
      rw [hkey]
    rw [he] at hw ⊢
    have hlen : (R2 ++ [(Sym.rule n, e.2)]).length = R2.length + 1 := by simp
    rw [hlen]
    have hl1 : Sym.rule n ∉ expandOnce (R2 ++ [(Sym.rule n, e.2)]) l :=
      not_mem_expandOnce_full hw2 hkb hp1 hp2 l
    have hstep : iterN (R2 ++ [(Sym.rule n, e.2)]) (R2.length + 1) l =
        iterN (R2 ++ [(Sym.rule n, e.2)]) R2.length
          (expandOnce (R2 ++ [(Sym.rule n, e.2)]) l) := rfl
    obtain ⟨hag, hnot⟩ := iterN_agree (p := e.2) hw2 hkb R2.length hl1
    rw [hstep, hag]
    have hfix := ih hw2 (expandOnce (R2 ++ [(Sym.rule n, e.2)]) l)
    rw [expandOnce_agree hnot]
    exact hfix

/-! ### Expansion lemmas for the Expander -/

theorem expand_eq_iterN {R : Rules} {lo : Nat} (hw : WFR lo R) (s : Sym) :
    convert_symbol_to_raw_actions s R = iterN R R.length [s] := by
  unfold convert_symbol_to_raw_actions
  exact expandIter_eq_of_stab R R.length (R.length + 1) [s] (by omega) (stab_wfr R hw [s])

theorem expand_nonkey {R : Rules} {s : Sym} (h : dictGet R s = none) :
    convert_symbol_to_raw_actions s R = [s] := by
  have h1 : expandOnce R [s] = [s] := by simp [expandOnce, h]
  unfold convert_symbol_to_raw_actions
  simp [expandIter, h1]

theorem expand_hom {R : Rules} {lo n : Nat} {p : SPair} (hw : WFR lo R)
    (h : dictGet R (Sym.rule n) = some p) :
    convert_symbol_to_raw_actions (Sym.rule n) R =
      convert_symbol_to_raw_actions p.1 R ++ convert_symbol_to_raw_actions p.2 R := by
  have h1 : expandOnce R [Sym.rule n] = [p.1, p.2] := by simp [expandOnce, h]
  have e2 : iterN R (R.length + 1) [Sym.rule n] = iterN R R.length [Sym.rule n] := by
    rw [iterN_succ_right]
    exact stab_wfr R hw [Sym.rule n]
  have e3 : iterN R (R.length + 1) [Sym.rule n] =
      iterN R R.length [p.1] ++ iterN R R.length [p.2] := by
    show iterN R R.length (expandOnce R [Sym.rule n]) = _
    rw [h1, show ([p.1, p.2] : List Sym) = [p.1] ++ [p.2] from rfl, iterN_append]
  rw [expand_eq_iterN hw, ← e2, e3, ← expand_eq_iterN hw p.1, ← expand_eq_iterN hw p.2]

theorem expandSeq_raw {R : Rules} {lo : Nat} (hw : WFR lo R) :
    ∀ {l : List Sym}, l.all isRaw = true → expandSequence R l = l := by
  intro l
  induction l with
  | nil => intro _; rfl
  | cons a rest ih =>
    intro h
    simp only [List.all_cons, Bool.and_eq_true] at h
    obtain ⟨i, rfl⟩ : ∃ i, a = Sym.raw i := by
      cases a with
      | raw i => exact ⟨i, rfl⟩
      | rule m => simp [isRaw] at h
      | eoe => simp [isRaw] at h
    simp only [expandSequence]
    rw [expand_nonkey (WFR_raw_none hw i), ih h.2]
    rfl

theorem expandSeq_convertAux {R : Rules} (rr : RevRules)
    (hom : ∀ a b nm, dictGet rr (a, b) = some nm →
      convert_symbol_to_raw_actions nm R =
        convert_symbol_to_raw_actions a R ++ convert_symbol_to_raw_actions b R) :
    ∀ (s : List Sym) (u : UsageCount),
      expandSequence R (convertAux rr s u).1 = expandSequence R s := by
  intro s u
  induction s, u using convertAux.induct rr with
  | case1 u => rfl
  | case2 a u => rfl
  | case3 a b rest u nm hm ih =>
    simp only [convertAux, hm, expandSequence]
    rw [hom a b nm hm, ih]
    simp [expandSequence, List.append_assoc]
  | case4 a b rest u hm ih =>
    simp only [convertAux, hm, expandSequence]
    rw [ih]
    rfl

/-! ### Layer Builder scan invariants -/

theorem gen1Go_occ (k : Int) (s : List Sym) :
    ∀ (ixs : List Nat) (cnt : PairCount) (last : Option SPair) (skip : Bool)
      (rules : Rules) (next : Nat),
      (∀ p : SPair, dictGetD cnt p 0 +
        ((ixs.countP fun ix => decide (pairAt s ix = p)) : Int) ≤ (occCount s p : Int)) →
      (∀ e ∈ rules, k ≤ (occCount s e.2 : Int)) →
      ∀ e ∈ (gen1Go k s ixs cnt last skip rules next).1, k ≤ (occCount s e.2 : Int) := by
  intro ixs
  induction ixs with
  | nil => intro cnt last skip rules next _ hr; exact hr
  | cons ix rest ih =>
    intro cnt last skip rules next hc hr
    have hdrop : ∀ p : SPair, dictGetD cnt p 0 +
        ((rest.countP fun ix2 => decide (pairAt s ix2 = p)) : Int) ≤ (occCount s p : Int) := by
      intro p
      have h := hc p
      rw [List.countP_cons] at h
      by_cases hp : pairAt s ix = p
      · simp [hp] at h; omega
      · simp [hp] at h; omega
    have hdec : ∀ (c2 : PairCount) (q : SPair),
        (∀ p : SPair, dictGetD c2 p 0 +
          ((rest.countP fun ix2 => decide (pairAt s ix2 = p)) : Int) ≤ (occCount s p : Int)) →
        (∀ p : SPair, dictGetD (dictSet c2 q (dictGetD c2 q 0 - 1)) p 0 +
          ((rest.countP fun ix2 => decide (pairAt s ix2 = p)) : Int) ≤ (occCount s p : Int)) := by
      intro c2 q hinv p
      by_cases hp : p = q
      · subst hp
        rw [dictGetD_dictSet_self]
        have := hinv p
        omega
      · rw [dictGetD_dictSet_ne _ _ _ _ hp]
        exact hinv p
    cases skip with
    | true =>
      simp only [gen1Go, if_pos rfl]
      exact ih cnt last false rules next hdrop hr
    | false =>
      by_cases heoe : pyGet s ((ix : Int) + 1) = Sym.eoe
      · simp only [gen1Go, Bool.false_eq_true, if_false, if_pos heoe]
        exact ih cnt last false rules next hdrop hr
      · simp only [gen1Go, Bool.false_eq_true, if_false, if_neg heoe, get_next_rule_name]
        by_cases hlast : some (pairAt s ix) = last
        · simp only [if_pos hlast]
          by_cases hfire : k ≤ dictGetD cnt (pairAt s ix) 0
          · simp only [if_pos hfire]
            have hbound : k ≤ (occCount s (pairAt s ix) : Int) := by
              have := hdrop (pairAt s ix)
              omega
            by_cases hmint : rules.all (fun e => e.2 != pairAt s ix) = true
            · simp only [if_pos hmint]
              refine ih _ _ true _ (next + 1) (hdec cnt _ hdrop) ?_
              intro e he
              rcases mem_dictSet he with he | he
              · exact hr e he
              · rw [he]; exact hbound
            · simp only [if_neg hmint]
              exact ih _ _ true _ next (hdec cnt _ hdrop) hr
          · simp only [if_neg hfire]
            exact ih cnt none false rules next hdrop hr
        · simp only [if_neg hlast]
          have hinc : ∀ p : SPair,
              dictGetD (dictSet cnt (pairAt s ix) (dictGetD cnt (pairAt s ix) 0 + 1)) p 0 +
                ((rest.countP fun ix2 => decide (pairAt s ix2 = p)) : Int) ≤
                (occCount s p : Int) := by
            intro p
            by_cases hp : p = pairAt s ix
            · subst hp
              rw [dictGetD_dictSet_self]
              have h := hc (pairAt s ix)
              rw [List.countP_cons] at h
              simp at h
              omega
            · rw [dictGetD_dictSet_ne _ _ _ _ hp]
              exact hdrop p
          by_cases hfire : k ≤ dictGetD
              (dictSet cnt (pairAt s ix) (dictGetD cnt (pairAt s ix) 0 + 1)) (pairAt s ix) 0
          · simp only [if_pos hfire]
            have hbound : k ≤ (occCount s (pairAt s ix) : Int) := by
              have h1 := hinc (pairAt s ix)
              omega
            by_cases hmint : rules.all (fun e => e.2 != pairAt s ix) = true
            · simp only [if_pos hmint]
              refine ih _ _ true _ (next + 1) (hdec _ _ hinc) ?_
              intro e he
              rcases mem_dictSet he with he | he
              · exact hr e he
              · rw [he]; exact hbound
            · simp only [if_neg hmint]
              exact ih _ _ true _ next (hdec _ _ hinc) hr
          · simp only [if_neg hfire]
            exact ih _ _ false rules next hinc hr


theorem gen1Go_snd_ne_eoe (k : Int) (s : List Sym) :
    ∀ (ixs : List Nat) (cnt : PairCount) (last : Option SPair) (skip : Bool)
      (rules : Rules) (next : Nat),
      (∀ e ∈ rules, e.2.2 ≠ Sym.eoe) →
      ∀ e ∈ (gen1Go k s ixs cnt last skip rules next).1, e.2.2 ≠ Sym.eoe := by
  intro ixs
  induction ixs with
  | nil => intro cnt last skip rules next hr; exact hr
  | cons ix rest ih =>
    intro cnt last skip rules next hr
    cases skip with
    | true =>
      simp only [gen1Go, if_pos rfl]
      exact ih cnt last false rules next hr
    | false =>
      by_cases heoe : pyGet s ((ix : Int) + 1) = Sym.eoe
      · simp only [gen1Go, Bool.false_eq_true, if_false, if_pos heoe]
        exact ih cnt last false rules next hr
      · simp only [gen1Go, Bool.false_eq_true, if_false, if_neg heoe, get_next_rule_name]
        have hnew : ∀ rules2 : Rules, (∀ e ∈ rules2, e.2.2 ≠ Sym.eoe) →
            ∀ e ∈ dictSet rules2 (Sym.rule next) (pairAt s ix), e.2.2 ≠ Sym.eoe := by
          intro rules2 h2 e he
          rcases mem_dictSet he with he | he
          · exact h2 e he
          · rw [he]
            exact heoe
        by_cases hlast : some (pairAt s ix) = last
        · simp only [if_pos hlast]
          by_cases hfire : k ≤ dictGetD cnt (pairAt s ix) 0
          · simp only [if_pos hfire]
            by_cases hmint : rules.all (fun e => e.2 != pairAt s ix) = true
            · simp only [if_pos hmint]
              exact ih _ _ true _ (next + 1) (hnew rules hr)
            · simp only [if_neg hmint]
              exact ih _ _ true _ next hr
          · simp only [if_neg hfire]
            exact ih cnt none false rules next hr
        · simp only [if_neg hlast]
          by_cases hfire : k ≤ dictGetD
              (dictSet cnt (pairAt s ix) (dictGetD cnt (pairAt s ix) 0 + 1)) (pairAt s ix) 0
          · simp only [if_pos hfire]
            by_cases hmint : rules.all (fun e => e.2 != pairAt s ix) = true
            · simp only [if_pos hmint]
              exact ih _ _ true _ (next + 1) (hnew rules hr)
            · simp only [if_neg hmint]
              exact ih _ _ true _ next hr
          · simp only [if_neg hfire]
            exact ih _ _ false rules next hr

theorem gen1Go_wfr (k : Int) (s : List Sym) (lo : Nat) (hs : ∀ x ∈ s, SymBelow lo x) :
    ∀ (ixs : List Nat) (cnt : PairCount) (last : Option SPair) (skip : Bool)
      (rules : Rules) (next : Nat),
      lo ≤ next → WFR lo rules → KeysBelow next rules →
      WFR lo (gen1Go k s ixs cnt last skip rules next).1 ∧
      KeysBelow (gen1Go k s ixs cnt last skip rules next).2
        (gen1Go k s ixs cnt last skip rules next).1 ∧
      next ≤ (gen1Go k s ixs cnt last skip rules next).2 := by
  intro ixs
  induction ixs with
  | nil => intro cnt last skip rules next hlon hwf hkb; exact ⟨hwf, hkb, le_refl next⟩
  | cons ix rest ih =>
    intro cnt last skip rules next hlon hwf hkb
    have hpair1 : SymBelow next (pairAt s ix).1 := by
      rcases pyGet_mem_or_default s (ix : Int) with h | h
      · exact symBelow_mono hlon (hs _ h)
      · rw [show (pairAt s ix).1 = pyGet s (ix : Int) from rfl, h]; trivial
    have hpair2 : SymBelow next (pairAt s ix).2 := by
      rcases pyGet_mem_or_default s ((ix : Int) + 1) with h | h
      · exact symBelow_mono hlon (hs _ h)
      · rw [show (pairAt s ix).2 = pyGet s ((ix : Int) + 1) from rfl, h]; trivial
    have hmintstep : ∀ (cnt2 : PairCount) (last2 : Option SPair),
        WFR lo (gen1Go k s rest cnt2 last2 true
            (dictSet rules (Sym.rule next) (pairAt s ix)) (next + 1)).1 ∧
        KeysBelow (gen1Go k s rest cnt2 last2 true
            (dictSet rules (Sym.rule next) (pairAt s ix)) (next + 1)).2
          (gen1Go k s rest cnt2 last2 true
            (dictSet rules (Sym.rule next) (pairAt s ix)) (next + 1)).1 ∧
        next ≤ (gen1Go k s rest cnt2 last2 true
            (dictSet rules (Sym.rule next) (pairAt s ix)) (next + 1)).2 := by
      intro cnt2 last2
      have hfresh : dictGet rules (Sym.rule next) = none :=
        keysBelow_dictGet_none hkb (le_refl next)
      rw [dictSet_fresh hfresh]
      have hwf2 : WFR lo (rules ++ [(Sym.rule next, pairAt s ix)]) := by
        refine WFR_append _ hlon hwf hkb ?_
        exact ⟨next, rfl, le_refl next, hpair1, hpair2, trivial⟩
      have hkb2 : KeysBelow (next + 1) (rules ++ [(Sym.rule next, pairAt s ix)]) := by
        intro e he
        rcases List.mem_append.mp he with he | he
        · obtain ⟨m, g1, g2⟩ := hkb e he
          exact ⟨m, g1, by omega⟩
        · simp at he
          rw [he]
          exact ⟨next, rfl, by omega⟩
      obtain ⟨w1, w2, w3⟩ := ih cnt2 last2 true _ (next + 1) (by omega) hwf2 hkb2
      exact ⟨w1, w2, by omega⟩
    cases skip with
    | true =>
      simp only [gen1Go, if_pos rfl]
      exact ih cnt last false rules next hlon hwf hkb
    | false =>
      by_cases heoe : pyGet s ((ix : Int) + 1) = Sym.eoe
      · simp only [gen1Go, Bool.false_eq_true, if_false, if_pos heoe]
        exact ih cnt last false rules next hlon hwf hkb
      · simp only [gen1Go, Bool.false_eq_true, if_false, if_neg heoe, get_next_rule_name]
        by_cases hlast : some (pairAt s ix) = last
        · simp only [if_pos hlast]
          by_cases hfire : k ≤ dictGetD cnt (pairAt s ix) 0
          · simp only [if_pos hfire]
            by_cases hmint : rules.all (fun e => e.2 != pairAt s ix) = true
            · simp only [if_pos hmint]
              exact hmintstep _ _
            · simp only [if_neg hmint]
              exact ih _ _ true _ next hlon hwf hkb
          · simp only [if_neg hfire]
            exact ih cnt none false rules next hlon hwf hkb
        · simp only [if_neg hlast]
          by_cases hfire : k ≤ dictGetD
              (dictSet cnt (pairAt s ix) (dictGetD cnt (pairAt s ix) 0 + 1)) (pairAt s ix) 0
          · simp only [if_pos hfire]
            by_cases hmint : rules.all (fun e => e.2 != pairAt s ix) = true
            · simp only [if_pos hmint]
              exact hmintstep _ _
            · simp only [if_neg hmint]
              exact ih _ _ true _ next hlon hwf hkb
          · simp only [if_neg hfire]
            exact ih _ _ false rules next hlon hwf hkb


/-! ### Reverse-lookup construction lemmas -/

theorem revBuild_mem : ∀ (rules : Rules) (acc : RevRules) (p : SPair) (nm : Sym),
    dictGet (rules.foldl (fun acc e => dictSet acc e.2 e.1) acc) p = some nm →
    (nm, p) ∈ rules ∨ dictGet acc p = some nm := by
  intro rules
  induction rules with
  | nil => intro acc p nm h; right; exact h
  | cons f rest ih =>
    intro acc p nm h
    rw [List.foldl_cons] at h
    rcases ih _ p nm h with h2 | h2
    · left; exact List.mem_cons_of_mem _ h2
    · by_cases hp : p = f.2
      · subst hp
        rw [dictGet_dictSet_self] at h2
        have : f.1 = nm := by injection h2
        left
        rw [← this]
        exact List.mem_cons_self f rest
      · right
        rwa [dictGet_dictSet_ne _ _ _ hp] at h2

theorem revBuild_isSome : ∀ (rules : Rules) (acc : RevRules) (e : Sym × SPair),
    e ∈ rules ∨ (dictGet acc e.2).isSome →
    (dictGet (rules.foldl (fun acc e => dictSet acc e.2 e.1) acc) e.2).isSome := by
  intro rules
  induction rules with
  | nil =>
    intro acc e h
    rcases h with h | h
    · simp at h
    · exact h
  | cons f rest ih =>
    intro acc e h
    rw [List.foldl_cons]
    rcases h with h | h
    · rcases List.mem_cons.mp h with h | h
      · subst h
        exact ih _ e (Or.inr (by rw [dictGet_dictSet_self]; rfl))
      · exact ih _ e (Or.inl h)
    · refine ih _ e (Or.inr ?_)
      exact dictGet_isSome_dictSet h f.2 f.1

/-! ### Layer-level lemmas -/

theorem gen1_occ (k : Int) (s : List Sym) (next : Nat) :
    ∀ e ∈ (generate_1_layer_of_rules k s next).1, k ≤ (occCount s e.2 : Int) := by
  refine gen1Go_occ k s (List.range (s.length - 1)) [] none false [] next ?_ ?_
  · intro p
    have : dictGetD ([] : PairCount) p 0 = 0 := rfl
    rw [this]
    simp [occCount]
  · intro e he
    simp at he

theorem gen1_rules_rev (k : Int) (s : List Sym) (next : Nat) :
    ∀ e ∈ (generate_1_layer_of_rules k s next).1,
      (dictGet (generate_1_layer_of_rules k s next).2.1 e.2).isSome := by
  intro e he
  exact revBuild_isSome _ [] e (Or.inl he)

theorem occCount_pos_match (s : List Sym) (p : SPair) (h : 0 < occCount s p) :
    ∃ ix : Nat, ix + 1 < s.length ∧ pairAt s ix = p := by
  rw [occCount, List.countP_pos_iff] at h
  obtain ⟨ix, hix, hp⟩ := h
  rw [List.mem_range] at hix
  exact ⟨ix, by omega, by simpa using hp⟩

/-- A layer that mints at least one rule strictly shrinks the string. -/
theorem layer_shrink (k : Int) (s : List Sym) (next : Nat) (hk : 1 ≤ k)
    (hne : (generate_1_layer_of_rules k s next).1 ≠ []) :
    (convert_a_string_using_reverse_rules s (generate_1_layer_of_rules k s next).2.1).1.length
      < s.length := by
  obtain ⟨e, he⟩ := List.exists_mem_of_ne_nil _ hne
  have hocc : 0 < occCount s e.2 := by
    have := gen1_occ k s next e he
    omega
  obtain ⟨ix, hix, hp⟩ := occCount_pos_match s e.2 hocc
  have hsome : (dictGet (generate_1_layer_of_rules k s next).2.1 (pairAt s ix)).isSome := by
    rw [hp]
    exact gen1_rules_rev k s next e he
  exact convertAux_lt_of_match _ s [] ix hix hsome

theorem convert_len_le (s : List Sym) (rr : RevRules) :
    (convert_a_string_using_reverse_rules s rr).1.length ≤ s.length :=
  convertAux_len_le rr s []

theorem convert_ne_imp_lt (s : List Sym) (rr : RevRules)
    (h : (convert_a_string_using_reverse_rules s rr).1 ≠ s) :
    (convert_a_string_using_reverse_rules s rr).1.length < s.length :=
  convertAux_ne_imp_lt rr s [] h

theorem gen1_nil_convert_id (k : Int) (s : List Sym) (next : Nat)
    (h : (generate_1_layer_of_rules k s next).1 = []) :
    convert_a_string_using_reverse_rules s (generate_1_layer_of_rules k s next).2.1 = (s, []) := by
  have hrr : (generate_1_layer_of_rules k s next).2.1 = [] := by
    simp only [generate_1_layer_of_rules] at h ⊢
    rw [h]
    rfl
  rw [hrr]
  exact convertAux_nil_rules s []


/-! ### Fixpoint Driver lemmas -/

theorem loopFuel_isSome (k : Int) : ∀ (fuel : Nat) (cur : List Sym) (next : Nat)
    (allR : Rules) (ru : UsageCount), cur.length < fuel →
    (loopFuel k fuel cur next allR ru).isSome := by
  intro fuel
  induction fuel with
  | zero => intro cur next allR ru h; omega
  | succ f ih =>
    intro cur next allR ru h
    simp only [loopFuel]
    by_cases heq : (convert_a_string_using_reverse_rules cur
        (generate_1_layer_of_rules k cur next).2.1).1 = cur
    · rw [if_pos heq]; rfl
    · rw [if_neg heq]
      refine ih _ _ _ _ ?_
      have := convert_ne_imp_lt cur (generate_1_layer_of_rules k cur next).2.1 heq
      omega

theorem loopFuel_len (k : Int) (hk : 1 ≤ k) : ∀ (fuel : Nat) (cur : List Sym) (next : Nat)
    (allR : Rules) (ru : UsageCount) (fin : List Sym) (Rf : Rules) (ruf : UsageCount),
    loopFuel k fuel cur next allR ru = some (fin, Rf, ruf) →
    fin.length ≤ cur.length ∧ (fin.length = cur.length → Rf = allR) := by
  intro fuel
  induction fuel with
  | zero => intro cur next allR ru fin Rf ruf h; simp [loopFuel] at h
  | succ f ih =>
    intro cur next allR ru fin Rf ruf h
    simp only [loopFuel] at h
    by_cases heq : (convert_a_string_using_reverse_rules cur
        (generate_1_layer_of_rules k cur next).2.1).1 = cur
    · rw [if_pos heq] at h
      have hx : (convert_a_string_using_reverse_rules cur
          (generate_1_layer_of_rules k cur next).2.1).1 = fin ∧
          dictUpdate allR (generate_1_layer_of_rules k cur next).1 = Rf ∧
          mergeUsage ru (convert_a_string_using_reverse_rules cur
            (generate_1_layer_of_rules k cur next).2.1).2 = ruf := by
        simpa using h
      have h1 : fin = cur := by rw [← hx.1, heq]
      have hrules : (generate_1_layer_of_rules k cur next).1 = [] := by
        by_contra hne
        have := layer_shrink k cur next hk hne
        rw [heq] at this
        omega
      have h2 : Rf = allR := by
        rw [← hx.2.1, hrules]
        rfl
      exact ⟨by rw [h1], fun _ => h2⟩
    · rw [if_neg heq] at h
      have hlt := convert_ne_imp_lt cur (generate_1_layer_of_rules k cur next).2.1 heq
      obtain ⟨g1, _⟩ := ih _ _ _ _ _ _ _ h
      constructor
      · omega
      · intro hfin
        omega


/-- Invariants carried through the driver loop: the final rule table is
well formed, extends the accumulated table, and expanding the final
sequence through it gives the same raw string as expanding the loop's
current sequence. -/
theorem loopFuel_roundtrip (k : Int) : ∀ (fuel : Nat) (cur : List Sym) (next : Nat)
    (allR : Rules) (ru : UsageCount) (fin : List Sym) (Rf : Rules) (ruf : UsageCount),
    (∀ x ∈ cur, SymBelow next x) →
    WFR 0 allR → KeysBelow next allR →
    loopFuel k fuel cur next allR ru = some (fin, Rf, ruf) →
    WFR 0 Rf ∧ (∀ e ∈ allR, e ∈ Rf) ∧
      expandSequence Rf fin = expandSequence Rf cur := by
  intro fuel
  induction fuel with
  | zero => intro cur next allR ru fin Rf ruf _ _ _ h; simp [loopFuel] at h
  | succ f ih =>
    intro cur next allR ru fin Rf ruf hcur hwf hkb h
    simp only [loopFuel] at h
    -- layer data
    obtain ⟨hwfL, hkbL, hnextle⟩ :=
      gen1Go_wfr k cur next hcur (List.range (cur.length - 1)) [] none false [] next
        (le_refl next) trivial (fun e he => by simp at he)
    have hwfL2 : WFR next (generate_1_layer_of_rules k cur next).1 := hwfL
    have hkbL2 : KeysBelow (generate_1_layer_of_rules k cur next).2.2
        (generate_1_layer_of_rules k cur next).1 := hkbL
    have hnextle2 : next ≤ (generate_1_layer_of_rules k cur next).2.2 := hnextle
    -- the updated table is an append
    have hupd : dictUpdate allR (generate_1_layer_of_rules k cur next).1 =
        allR ++ (generate_1_layer_of_rules k cur next).1 := by
      refine dictUpdate_append (WFR_nodup_keys hwfL2) ?_
      intro e he
      obtain ⟨m, g1, g2, _, _⟩ := WFR_mem hwfL2 he
      rw [g1]
      exact keysBelow_dictGet_none hkb g2
    have hwfA : WFR 0 (allR ++ (generate_1_layer_of_rules k cur next).1) :=
      WFR_append _ (Nat.zero_le next) hwf hkb hwfL2
    have hkbA : KeysBelow (generate_1_layer_of_rules k cur next).2.2
        (allR ++ (generate_1_layer_of_rules k cur next).1) := by
      intro e he
      rcases List.mem_append.mp he with he | he
      · obtain ⟨m, g1, g2⟩ := hkb e he
        exact ⟨m, g1, by omega⟩
      · exact hkbL2 e he
    -- symbols of the rewritten string stay bounded
    have hnw : ∀ x ∈ (convert_a_string_using_reverse_rules cur
        (generate_1_layer_of_rules k cur next).2.1).1,
        SymBelow (generate_1_layer_of_rules k cur next).2.2 x := by
      intro x hx
      rcases convertAux_syms _ cur [] x hx with hx2 | ⟨p, hp⟩
      · exact symBelow_mono hnextle2 (hcur x hx2)
      · rcases revBuild_mem _ [] p x hp with hmem | hnone
        · obtain ⟨m, g1, g2⟩ := hkbL2 (x, p) hmem
          simp only at g1
          rw [g1]
          exact g2
        · simp [dictGet] at hnone
    by_cases heq : (convert_a_string_using_reverse_rules cur
        (generate_1_layer_of_rules k cur next).2.1).1 = cur
    · rw [if_pos heq] at h
      have hx : (convert_a_string_using_reverse_rules cur
          (generate_1_layer_of_rules k cur next).2.1).1 = fin ∧
          dictUpdate allR (generate_1_layer_of_rules k cur next).1 = Rf ∧
          mergeUsage ru (convert_a_string_using_reverse_rules cur
            (generate_1_layer_of_rules k cur next).2.1).2 = ruf := by
        simpa using h
      have hRf : Rf = allR ++ (generate_1_layer_of_rules k cur next).1 := by
        rw [← hx.2.1, hupd]
      have hfin : fin = cur := by rw [← hx.1, heq]
      subst hfin
      refine ⟨by rw [hRf]; exact hwfA, ?_, rfl⟩
      intro e he
      rw [hRf]
      exact List.mem_append_left _ he
    · rw [if_neg heq] at h
      rw [hupd] at h
      obtain ⟨hwfF, hsubF, hexpF⟩ := ih _ _ _ _ _ _ _ hnw hwfA hkbA h
      refine ⟨hwfF, ?_, ?_⟩
      · intro e he
        exact hsubF e (List.mem_append_left _ he)
      · rw [hexpF]
        refine expandSeq_convertAux _ ?_ cur []
        intro a b nm hab
        rcases revBuild_mem _ [] (a, b) nm hab with hmem | hnone
        · have hin : (nm, (a, b)) ∈ Rf :=
            hsubF _ (List.mem_append_right _ hmem)
          obtain ⟨n, g1, _, _, _⟩ := WFR_mem hwfF hin
          simp only at g1
          subst g1
          have hget : dictGet Rf (Sym.rule n) = some (a, b) :=
            dictGet_of_mem_nodup (WFR_nodup_keys hwfF) hin
          exact expand_hom hwfF hget
        · simp [dictGet] at hnone


/-! ### Entry-point helper lemmas -/

theorem gag_isSome (k : Int) (next0 : Nat) (i : Int) (rest : List Sym) :
    (generate_action_grammar k next0 (Sym.raw i :: rest)).isSome = true := by
  simp only [generate_action_grammar]
  cases hl : loopFuel k ((Sym.raw i :: rest).length + 1) (Sym.raw i :: rest) next0 [] [] with
  | none =>
    have h2 := loopFuel_isSome k ((Sym.raw i :: rest).length + 1) (Sym.raw i :: rest)
      next0 [] [] (by omega)
    rw [hl] at h2
    simp at h2
  | some r => rfl

theorem build_skip (R : Rules) : ∀ (l : UsageCount) (acc : ActionUsage) (t : List Sym),
    (∀ e ∈ l, convert_symbol_to_raw_actions e.1 R ≠ t) →
    dictGet (l.foldl (fun acc e =>
      dictSet acc (convert_symbol_to_raw_actions e.1 R) e.2) acc) t = dictGet acc t := by
  intro l
  induction l with
  | nil => intro acc t _; rfl
  | cons e rest ih =>
    intro acc t h
    rw [List.foldl_cons, ih _ t (fun f hf => h f (List.mem_cons_of_mem _ hf))]
    exact dictGet_dictSet_ne _ _ _ (Ne.symm (h e (List.mem_cons_self e rest)))


/-! ### Claims -/

/-- C1: for every non-empty list of integer actions and every k ≥ 1, expanding
each symbol of the final sequence returned by `generate_action_grammar`
through the returned rule table (via `convert_symbol_to_raw_actions`) and
concatenating the resulting tuples in order reconstructs exactly the original
input sequence. -/
theorem claim_C1 (k : Int) (next0 : Nat) (actions fin : List Sym) (R : Rules)
    (u : ActionUsage) (hk : 1 ≤ k) (hne : actions ≠ [])
    (hraw : actions.all isRaw = true)
    (hrun : generate_action_grammar k next0 actions = some (fin, R, u)) :
    expandSequence R fin = actions := by
  cases actions with
  | nil => exact absurd rfl hne
  | cons a rest =>
    cases a with
    | raw i =>
      simp only [generate_action_grammar] at hrun
      cases hl : loopFuel k ((Sym.raw i :: rest).length + 1) (Sym.raw i :: rest)
          next0 [] [] with
      | none => rw [hl] at hrun; simp at hrun
      | some r =>
        rw [hl] at hrun
        obtain ⟨r1, r2, r3⟩ := r
        have hx : r1 = fin ∧ r2 = R ∧ build_action_usage r2 r3 = u := by simpa using hrun
        obtain ⟨h1, h2, _⟩ := hx
        subst h1
        subst h2
        have hsb : ∀ x ∈ (Sym.raw i :: rest), SymBelow next0 x := by
          intro x hx2
          have hx3 : isRaw x = true := by
            rw [List.all_eq_true] at hraw
            exact hraw x hx2
          cases x with
          | raw j => trivial
          | rule m => simp [isRaw] at hx3
          | eoe => simp [isRaw] at hx3
        obtain ⟨hwfF, _, hexp⟩ := loopFuel_roundtrip k _ _ next0 [] [] _ _ _ hsb trivial
          (fun e he => by simp at he) hl
        rw [hexp]
        exact expandSeq_raw hwfF hraw
    | rule n => simp [generate_action_grammar] at hrun
    | eoe => simp [generate_action_grammar] at hrun

/-- C1 witness: a concrete run on `[0,0,0,0]` with k = 2. -/
theorem claim_C1_witness :
    (1 : Int) ≤ 2 ∧
    ([Sym.raw 0, Sym.raw 0, Sym.raw 0, Sym.raw 0] : List Sym).all isRaw = true ∧
    expandSequence [(Sym.rule 0, (Sym.raw 0, Sym.raw 0))] [Sym.rule 0, Sym.rule 0] =
      [Sym.raw 0, Sym.raw 0, Sym.raw 0, Sym.raw 0] :=
  ⟨by decide, by decide,
    claim_C1 2 0 [Sym.raw 0, Sym.raw 0, Sym.raw 0, Sym.raw 0] [Sym.rule 0, Sym.rule 0]
      [(Sym.rule 0, (Sym.raw 0, Sym.raw 0))] [([Sym.raw 0, Sym.raw 0], 2)]
      (by decide) (by decide) (by decide) (by decide)⟩

/-- C2 counterexample: with the default marker as the first element of an
adjacent pair, the Layer Builder counts the pair, mints a rule whose
right-hand side contains the marker, and the Rewriter replaces the marker. -/
theorem claim_C2_cex :
    (generate_1_layer_of_rules 1 [Sym.raw 5, Sym.eoe, Sym.raw 3] 0).1 =
      [(Sym.rule 0, (Sym.eoe, Sym.raw 3))] ∧
    (convert_a_string_using_reverse_rules [Sym.raw 5, Sym.eoe, Sym.raw 3]
      (generate_1_layer_of_rules 1 [Sym.raw 5, Sym.eoe, Sym.raw 3] 0).2.1).1 =
      [Sym.raw 5, Sym.rule 0] := by
  decide

/-- C2 (amended): the end-of-episode marker never occurs as the second
element of a pair considered by the Layer Builder, hence never as the second
component of a minted rule's right-hand side.  (As the first element it can
participate, enter a rule, and be replaced — see the counterexample.) -/
theorem claim_C2 (k : Int) (s : List Sym) (next : Nat) :
    ∀ e ∈ (generate_1_layer_of_rules k s next).1, e.2.2 ≠ Sym.eoe := by
  intro e he
  exact gen1Go_snd_ne_eoe k s (List.range (s.length - 1)) [] none false [] next
    (fun f hf => by simp at hf) e he

/-- C2 witness. -/
theorem claim_C2_witness :
    (Sym.rule 0, (Sym.eoe, Sym.raw 3)) ∈
      (generate_1_layer_of_rules 1 [Sym.raw 5, Sym.eoe, Sym.raw 3] 0).1 ∧
    (Sym.rule 0, (Sym.eoe, Sym.raw 3)).2.2 ≠ Sym.eoe :=
  ⟨by decide, claim_C2 1 [Sym.raw 5, Sym.eoe, Sym.raw 3] 0
    (Sym.rule 0, (Sym.eoe, Sym.raw 3)) (by decide)⟩

/-- C3: the code performs the compensating decrement unguarded; at ix = 0 the
Python negative index `string[ix-1] = string[-1]` wraps to the last element,
so the pair `(string[-1], string[0])` is decremented.  On `[1,2,1,1]` with
k = 1 this suppresses the rule for the pair `(1,1)` that the spec's guarded
semantics (`generate_1_layer_of_rules_guarded`) would mint. -/
theorem claim_C3 :
    generate_1_layer_of_rules 1 [Sym.raw 1, Sym.raw 2, Sym.raw 1, Sym.raw 1] 0 =
      ([(Sym.rule 0, (Sym.raw 1, Sym.raw 2))],
       [((Sym.raw 1, Sym.raw 2), Sym.rule 0)], 1) ∧
    generate_1_layer_of_rules_guarded 1 [Sym.raw 1, Sym.raw 2, Sym.raw 1, Sym.raw 1] 0 =
      ([(Sym.rule 0, (Sym.raw 1, Sym.raw 2)), (Sym.rule 1, (Sym.raw 1, Sym.raw 1))],
       [((Sym.raw 1, Sym.raw 2), Sym.rule 0), ((Sym.raw 1, Sym.raw 1), Sym.rule 1)], 2) := by
  decide

/-- C4 counterexample: with k = 0 < 1 the entry point succeeds (no
`InvalidConfig` failure exists in the code). -/
theorem claim_C4_cex :
    generate_action_grammar 0 0 [Sym.raw 1] = some ([Sym.raw 1], [], []) := by
  decide

/-- C4 (amended): the entry point performs no validation of k at all: for
every k (including k < 1) it succeeds on any non-empty list whose first
element is a raw integer; its only failures are the list assertions. -/
theorem claim_C4 (k : Int) (next0 : Nat) (actions : List Sym) (hne : actions ≠ [])
    (hhead : ∃ i rest, actions = Sym.raw i :: rest) :
    (generate_action_grammar k next0 actions).isSome = true := by
  obtain ⟨i, rest, rfl⟩ := hhead
  exact gag_isSome k next0 i rest

/-- C4 witness: k = 0. -/
theorem claim_C4_witness :
    ([Sym.raw 1] : List Sym) ≠ [] ∧
    (generate_action_grammar 0 0 [Sym.raw 1]).isSome = true :=
  ⟨by decide, claim_C4 0 0 [Sym.raw 1] (by decide) ⟨1, [], rfl⟩⟩

/-- C5 counterexample: the Expander does not fail on a symbol absent from
both the raw alphabet and the rule table; it returns the one-element tuple
containing the symbol unchanged. -/
theorem claim_C5_cex :
    convert_symbol_to_raw_actions (Sym.rule 99) [] = [Sym.rule 99] := by
  decide

/-- C5 (amended): for any symbol that is not a key of the rule table (in
particular one absent from both the raw alphabet and the table), the
Expander returns `(symbol,)` rather than failing. -/
theorem claim_C5 (rules : Rules) (sym : Sym) (h : dictGet rules sym = none) :
    convert_symbol_to_raw_actions sym rules = [sym] :=
  expand_nonkey h

/-- C5 witness: a stale rule identifier against a non-empty table. -/
theorem claim_C5_witness :
    dictGet [(Sym.rule 0, (Sym.raw 1, Sym.raw 2))] (Sym.rule 99) = none ∧
    convert_symbol_to_raw_actions (Sym.rule 99) [(Sym.rule 0, (Sym.raw 1, Sym.raw 2))] =
      [Sym.rule 99] :=
  ⟨by decide, claim_C5 [(Sym.rule 0, (Sym.raw 1, Sym.raw 2))] (Sym.rule 99) (by decide)⟩

/-- C6: on the module comment's example "abddddeabde" (a=0, b=1, d=2, e=3)
with k = 2 the code returns a 7-symbol final sequence and exactly two rules,
but their expansions are (a,b) and (d,d) — not (d,e) as the comment and the
claim state. -/
theorem claim_C6 :
    generate_action_grammar 2 0 [Sym.raw 0, Sym.raw 1, Sym.raw 2, Sym.raw 2, Sym.raw 2,
        Sym.raw 2, Sym.raw 3, Sym.raw 0, Sym.raw 1, Sym.raw 2, Sym.raw 3] =
      some ([Sym.rule 1, Sym.rule 0, Sym.rule 0, Sym.raw 3, Sym.rule 1, Sym.raw 2, Sym.raw 3],
        [(Sym.rule 0, (Sym.raw 2, Sym.raw 2)), (Sym.rule 1, (Sym.raw 0, Sym.raw 1))],
        [([Sym.raw 0, Sym.raw 1], 2), ([Sym.raw 2, Sym.raw 2], 2)]) ∧
    convert_symbol_to_raw_actions (Sym.rule 0)
      [(Sym.rule 0, (Sym.raw 2, Sym.raw 2)), (Sym.rule 1, (Sym.raw 0, Sym.raw 1))] =
      [Sym.raw 2, Sym.raw 2] ∧
    convert_symbol_to_raw_actions (Sym.rule 1)
      [(Sym.rule 0, (Sym.raw 2, Sym.raw 2)), (Sym.rule 1, (Sym.raw 0, Sym.raw 1))] =
      [Sym.raw 0, Sym.raw 1] := by
  decide

/-- C7: no pair occurring fewer than k times in a layer's input sequence
(counting all adjacent occurrences, before the overlap-skip and
consumption-decrement adjustments) is ever assigned a rule. -/
theorem claim_C7 (k : Int) (s : List Sym) (next : Nat) (e : Sym × SPair)
    (he : e ∈ (generate_1_layer_of_rules k s next).1) : k ≤ (occCount s e.2 : Int) :=
  gen1_occ k s next e he

/-- C7 witness. -/
theorem claim_C7_witness :
    (Sym.rule 0, (Sym.raw 0, Sym.raw 0)) ∈
      (generate_1_layer_of_rules 2 [Sym.raw 0, Sym.raw 0, Sym.raw 0, Sym.raw 0] 0).1 ∧
    (2 : Int) ≤ (occCount [Sym.raw 0, Sym.raw 0, Sym.raw 0, Sym.raw 0]
      (Sym.raw 0, Sym.raw 0) : Int) :=
  ⟨by decide, claim_C7 2 [Sym.raw 0, Sym.raw 0, Sym.raw 0, Sym.raw 0] 0
    (Sym.rule 0, (Sym.raw 0, Sym.raw 0)) (by decide)⟩

/-- C8: the final sequence is never longer than the input, is strictly
shorter whenever at least one rule was minted during the run, and a single
Rewriter pass never lengthens its input. -/
theorem claim_C8 (k : Int) (next0 : Nat) (actions fin : List Sym) (R : Rules)
    (u : ActionUsage) (hk : 1 ≤ k)
    (hrun : generate_action_grammar k next0 actions = some (fin, R, u)) :
    fin.length ≤ actions.length ∧
    (R ≠ [] → fin.length < actions.length) ∧
    ∀ (s : List Sym) (rr : RevRules),
      (convert_a_string_using_reverse_rules s rr).1.length ≤ s.length := by
  cases actions with
  | nil => simp [generate_action_grammar] at hrun
  | cons a rest =>
    cases a with
    | raw i =>
      simp only [generate_action_grammar] at hrun
      cases hl : loopFuel k ((Sym.raw i :: rest).length + 1) (Sym.raw i :: rest)
          next0 [] [] with
      | none => rw [hl] at hrun; simp at hrun
      | some r =>
        rw [hl] at hrun
        obtain ⟨r1, r2, r3⟩ := r
        have hx : r1 = fin ∧ r2 = R ∧ build_action_usage r2 r3 = u := by simpa using hrun
        obtain ⟨h1, h2, _⟩ := hx
        subst h1
        subst h2
        have hlen := loopFuel_len k hk _ _ _ _ _ _ _ _ hl
        refine ⟨hlen.1, ?_, fun s rr => convert_len_le s rr⟩
        intro hRne
        rcases Nat.lt_or_eq_of_le hlen.1 with h | h
        · exact h
        · exact absurd (hlen.2 h) hRne
    | rule n => simp [generate_action_grammar] at hrun
    | eoe => simp [generate_action_grammar] at hrun

/-- C8 witness: on `[0,0,0,0]` with k = 2 a rule is minted and the final
sequence is strictly shorter. -/
theorem claim_C8_witness :
    ([Sym.rule 0, Sym.rule 0] : List Sym).length <
      ([Sym.raw 0, Sym.raw 0, Sym.raw 0, Sym.raw 0] : List Sym).length :=
  (claim_C8 2 0 [Sym.raw 0, Sym.raw 0, Sym.raw 0, Sym.raw 0] [Sym.rule 0, Sym.rule 0]
    [(Sym.rule 0, (Sym.raw 0, Sym.raw 0))] [([Sym.raw 0, Sym.raw 0], 2)]
    (by decide) (by decide)).2.1 (by decide)

/-- C9: per layer with k ≥ 1, the Rewriter's output is never longer than its
input; it is strictly shorter whenever the Layer Builder minted a rule; and
the pass leaves the sequence unchanged exactly when no rule was minted (no
pair reached the threshold), which is the Fixpoint Driver's exit condition.
Together with the strict decrease this is why the driver loop terminates;
the driver itself always returns a value on valid input (last conjunct). -/
theorem claim_C9 (k : Int) (s : List Sym) (next : Nat) (hk : 1 ≤ k) :
    (convert_a_string_using_reverse_rules s
        (generate_1_layer_of_rules k s next).2.1).1.length ≤ s.length ∧
    ((generate_1_layer_of_rules k s next).1 ≠ [] →
      (convert_a_string_using_reverse_rules s
        (generate_1_layer_of_rules k s next).2.1).1.length < s.length) ∧
    ((convert_a_string_using_reverse_rules s
        (generate_1_layer_of_rules k s next).2.1).1 = s ↔
      (generate_1_layer_of_rules k s next).1 = []) ∧
    (∀ (i : Int) (rest : List Sym), s = Sym.raw i :: rest →
      (generate_action_grammar k next s).isSome = true) := by
  refine ⟨convert_len_le s _, fun hne => layer_shrink k s next hk hne, ?_, ?_⟩
  · constructor
    · intro heq
      by_contra hne
      have hlt := layer_shrink k s next hk hne
      rw [heq] at hlt
      omega
    · intro hnil
      rw [gen1_nil_convert_id k s next hnil]
  · intro i rest hs
    rw [hs]
    exact gag_isSome k next i rest

/-- C9 witness: on `[0,0,0,0]` with k = 2 the layer mints a rule and the
rewritten sequence is strictly shorter. -/
theorem claim_C9_witness :
    (convert_a_string_using_reverse_rules [Sym.raw 0, Sym.raw 0, Sym.raw 0, Sym.raw 0]
      (generate_1_layer_of_rules 2 [Sym.raw 0, Sym.raw 0, Sym.raw 0, Sym.raw 0] 0).2.1).1.length <
      ([Sym.raw 0, Sym.raw 0, Sym.raw 0, Sym.raw 0] : List Sym).length :=
  (claim_C9 2 [Sym.raw 0, Sym.raw 0, Sym.raw 0, Sym.raw 0] 0 (by decide)).2.1 (by decide)

/-- C10: the usage map returned by the driver is built by plain assignment
`action_usage[expansion] = count` over the accumulated per-rule counts in
insertion order, so when two distinct identifiers expand to the same raw
tuple the map holds only the count of the last one processed, never the sum. -/
theorem claim_C10 (R : Rules) (ru1 ru2 ru3 : UsageCount) (i j : Sym) (vi vj : Int)
    (t : List Sym) (hne : i ≠ j)
    (hi : convert_symbol_to_raw_actions i R = t)
    (hj : convert_symbol_to_raw_actions j R = t)
    (h3 : ∀ e ∈ ru3, convert_symbol_to_raw_actions e.1 R ≠ t) :
    dictGet (build_action_usage R (ru1 ++ (i, vi) :: ru2 ++ (j, vj) :: ru3)) t = some vj ∧
    (vi + vj ≠ vj →
      dictGet (build_action_usage R (ru1 ++ (i, vi) :: ru2 ++ (j, vj) :: ru3)) t ≠
        some (vi + vj)) := by
  have hmain : dictGet (build_action_usage R (ru1 ++ (i, vi) :: ru2 ++ (j, vj) :: ru3)) t =
      some vj := by
    unfold build_action_usage
    rw [show ru1 ++ (i, vi) :: ru2 ++ (j, vj) :: ru3 =
        ((ru1 ++ (i, vi) :: ru2) ++ [(j, vj)]) ++ ru3 by simp, List.foldl_append,
      List.foldl_append]
    rw [build_skip R ru3 _ t h3]
    simp only [List.foldl_cons, List.foldl_nil]
    rw [hj]
    exact dictGet_dictSet_self _ t vj
  refine ⟨hmain, fun hsum hcontra => hsum ?_⟩
  rw [hmain] at hcontra
  injection hcontra with hcontra
  exact hcontra.symm

/-- C10 witness: two identifiers expanding to the same tuple; the map holds
the last count 5, not the sum 7. -/
theorem claim_C10_witness :
    Sym.rule 0 ≠ Sym.rule 3 ∧
    dictGet (build_action_usage
      [(Sym.rule 0, (Sym.raw 1, Sym.raw 2)), (Sym.rule 3, (Sym.raw 1, Sym.raw 2))]
      [(Sym.rule 0, 2), (Sym.rule 3, 5)]) [Sym.raw 1, Sym.raw 2] = some 5 :=
  ⟨by decide, (claim_C10 [(Sym.rule 0, (Sym.raw 1, Sym.raw 2)),
      (Sym.rule 3, (Sym.raw 1, Sym.raw 2))] [] [] [] (Sym.rule 0) (Sym.rule 3) 2 5
      [Sym.raw 1, Sym.raw 2] (by decide) (by decide) (by decide)
      (fun e he => by simp at he)).1⟩


end KSeq
